import Mathlib

/-!
Verification development for the `merizrizal.utils.custom_logging` Ansible
callback plugin (`plugins/callback/custom_logging.py`).

The plugin is shallowly embedded below: paths are modelled after Python
`pathlib.PurePosixPath` semantics (component lists plus an absolute flag),
timestamps as records of calendar fields with `strftime`-style zero-padded
decimal rendering, and the plugin's formatting, redaction, recap and
elapsed-time routines as pure Lean functions over these data.
-/

namespace CustomLogging

/-! ## Python `pathlib` model -/

/-- Splits a character list on the `/` separator, keeping empty segments
(as Python `str.split('/')` does). -/
def splitSlash : List Char → List (List Char)
  | [] => [[]]
  | c :: rest =>
    if c = '/' then [] :: splitSlash rest
    else
      match splitSlash rest with
      | [] => [[c]]
      | seg :: segs => (c :: seg) :: segs

/-- A `pathlib.PurePosixPath` value: an absolute flag plus the list of
non-empty, non-`.` path components. -/
structure PyPath where
  absolute : Bool
  parts : List (List Char)
deriving DecidableEq

/-- `pathlib.PurePosixPath(s)`: the path is absolute iff `s` starts with `/`;
components are the slash-separated segments with empty and `.` segments
dropped. -/
def parsePath (s : List Char) : PyPath :=
  { absolute := match s with
      | '/' :: _ => true
      | _ => false
    parts := (splitSlash s).filter (fun seg => seg != [] && seg != ['.']) }

/-- `pathlib` `joinpath`: joining onto an absolute right operand discards the
left operand entirely. -/
def PyPath.joinpath (p q : PyPath) : PyPath :=
  if q.absolute then q else ⟨p.absolute, p.parts ++ q.parts⟩

/-- `pathlib` `.parent`: drops the final component (the parent of `/` is `/`
and the parent of `.` is `.`). -/
def PyPath.parent (p : PyPath) : PyPath :=
  ⟨p.absolute, p.parts.dropLast⟩

/-- `pathlib` `.name`: the final component, or empty when there is none. -/
def PyPath.lastName (p : PyPath) : List Char :=
  p.parts.getLast?.getD []

/-- Index of the last `.` in a name, as Python `str.rfind('.')`. -/
def rfindDot (l : List Char) : Option Nat :=
  match l.reverse.findIdx? (fun c => c == '.') with
  | none => none
  | some j => some (l.length - 1 - j)

/-- `pathlib` `.stem` applied to a name: everything before the last `.`,
provided that dot is neither the first nor the last character. -/
def stemOf (nm : List Char) : List Char :=
  match rfindDot nm with
  | none => nm
  | some i => if 0 < i ∧ i < nm.length - 1 then nm.take i else nm

/-- Joins components with `/` separators. -/
def intercalateSlash : List (List Char) → List Char
  | [] => []
  | [p] => p
  | p :: ps => p ++ '/' :: intercalateSlash ps

/-- `str()` of a `pathlib` path: `/`-joined components, with a leading `/`
when absolute; the empty relative path renders as `.`. -/
def pathStr (p : PyPath) : List Char :=
  match p.parts with
  | [] => if p.absolute then ['/'] else ['.']
  | _ => (if p.absolute then ['/'] else []) ++ intercalateSlash p.parts

/-! ## Timestamps and `strftime` rendering -/

/-- A `datetime.datetime` value, to calendar-field precision. -/
structure Timestamp where
  year : Nat
  month : Nat
  day : Nat
  hour : Nat
  minute : Nat
  second : Nat
  microsecond : Nat
deriving DecidableEq

/-- Field ranges guaranteed by Python `datetime` (`MINYEAR = 1`,
`MAXYEAR = 9999`). -/
def Timestamp.Valid (t : Timestamp) : Prop :=
  1 ≤ t.year ∧ t.year ≤ 9999 ∧ 1 ≤ t.month ∧ t.month ≤ 12 ∧
  1 ≤ t.day ∧ t.day ≤ 31 ∧ t.hour ≤ 23 ∧ t.minute ≤ 59 ∧
  t.second ≤ 59 ∧ t.microsecond ≤ 999999

instance (t : Timestamp) : Decidable t.Valid := by
  unfold Timestamp.Valid
  infer_instance

/-- Little-endian base-10 digits of `n`, with explicit fuel (the fuel is
always instantiated with `n` itself, which suffices). -/
def digitsGo : Nat → Nat → List Nat
  | 0, _ => []
  | fuel + 1, n => if n = 0 then [] else n % 10 :: digitsGo fuel (n / 10)

/-- The character for a single decimal digit. -/
def digitChar10 : Nat → Char
  | 0 => '0'
  | 1 => '1'
  | 2 => '2'
  | 3 => '3'
  | 4 => '4'
  | 5 => '5'
  | 6 => '6'
  | 7 => '7'
  | 8 => '8'
  | _ => '9'

/-- `n` rendered in decimal, zero-padded on the left to width `w`
(Python `%04d`-style, as `strftime` field rendering does). -/
def fmtNat (w n : Nat) : List Char :=
  let ds := (digitsGo n n).reverse.map digitChar10
  List.replicate (w - ds.length) '0' ++ ds

/-- `LOG_FILE_SUFFIX`: `datetime.now().strftime('%Y-%m-%d-%H-%M-%S-%f')`,
applied to the run's start timestamp. -/
def strftimeSuffix (t : Timestamp) : List Char :=
  fmtNat 4 t.year ++ '-' ::
    (fmtNat 2 t.month ++ '-' ::
      (fmtNat 2 t.day ++ '-' ::
        (fmtNat 2 t.hour ++ '-' ::
          (fmtNat 2 t.minute ++ '-' ::
            (fmtNat 2 t.second ++ '-' :: fmtNat 6 t.microsecond)))))

/-- `_make_log_file_path`: joins the configured log directory with the
playbook's parent directory, then with
`<playbook stem>-<LOG_FILE_SUFFIX>.log`. -/
def makeLogFilePath (logDirectory playbook : List Char) (t : Timestamp) : PyPath :=
  let playbookPath := parsePath playbook
  let logSubdirectory := (parsePath logDirectory).joinpath playbookPath.parent
  logSubdirectory.joinpath
    (parsePath (stemOf playbookPath.lastName ++
      '-' :: (strftimeSuffix t ++ ['.', 'l', 'o', 'g'])))

/-! ## Display width and column padding -/

/-- Modelled from the spec: the external `ansible.utils.display.get_text_width`
collaborator measures a character's display width, where wide East Asian
characters occupy 2 columns and all other characters 1. -/
def charWidth (c : Char) : Nat :=
  if (0x1100 ≤ c.toNat ∧ c.toNat ≤ 0x115F) ∨ (0x2E80 ≤ c.toNat ∧ c.toNat ≤ 0x303E) ∨
     (0x3041 ≤ c.toNat ∧ c.toNat ≤ 0x33FF) ∨ (0x3400 ≤ c.toNat ∧ c.toNat ≤ 0x4DBF) ∨
     (0x4E00 ≤ c.toNat ∧ c.toNat ≤ 0x9FFF) ∨ (0xAC00 ≤ c.toNat ∧ c.toNat ≤ 0xD7A3) ∨
     (0xF900 ≤ c.toNat ∧ c.toNat ≤ 0xFAFF) ∨ (0xFF00 ≤ c.toNat ∧ c.toNat ≤ 0xFF60) ∨
     (0xFFE0 ≤ c.toNat ∧ c.toNat ≤ 0xFFE6)
  then 2 else 1

/-- `get_text_width` of a whole string: the sum of its characters' widths. -/
def getTextWidth (s : List Char) : Nat :=
  (s.map charWidth).sum

/-- The values the plugin passes to `_write_text_with_tab`: either a string
(host names, banner text) or an integer (recap counters). -/
inductive PyVal where
  | str (s : String)
  | int (n : Nat)
deriving DecidableEq

/-- Python `str()` coercion of a `_write_text_with_tab` argument. -/
def pyStr : PyVal → String
  | .str s => s
  | .int n => toString n

/-- Python `char * length` where `length` may be negative (negative repeat
counts yield the empty string). -/
def strRepeat (c : Char) (length : Int) : String :=
  String.mk (List.replicate length.toNat c)

/-- `_write_text_with_tab(text, width, char)`: appends `char` repeated
`width - get_text_width(str(text))` times to `str(text)`. -/
def writeTextWithTab (text : PyVal) (width : Nat) (char : Char) : String :=
  let length : Int := (width : Int) - getTextWidth (pyStr text).data
  pyStr text ++ strRepeat char length

/-! ## Redaction (`_log`) -/

/-- Whether `pat` occurs as a contiguous sublist of `s`. -/
def occursIn (pat : List Char) : List Char → Bool
  | [] => pat.isPrefixOf []
  | c :: rest => pat.isPrefixOf (c :: rest) || occursIn pat rest

/-- Leftmost non-overlapping replacement of every occurrence of `pat` by
`repl`, driven by explicit fuel (one unit per consumed input character,
so `s.length` units always suffice). -/
def replaceAllGo (pat repl : List Char) : Nat → List Char → List Char
  | 0, s => s
  | fuel + 1, s =>
    if pat = [] then s
    else
      match s with
      | [] => []
      | c :: rest =>
        if pat.isPrefixOf (c :: rest) then
          repl ++ replaceAllGo pat repl fuel ((c :: rest).drop pat.length)
        else
          c :: replaceAllGo pat repl fuel rest

/-- Modelled `re.sub(pat, repl, s)` for the literal fragment of regular
expressions: a pattern stands for the literal text it matches, and every
leftmost non-overlapping match is replaced. -/
def replaceAll (pat repl s : List Char) : List Char :=
  replaceAllGo pat repl s.length s

/-- The fixed mask token substituted for every match: 33 asterisks. -/
def maskToken : List Char :=
  List.replicate 33 '*'

/-- The redaction loop of `_log`: each mask pattern is applied with `re.sub`
in order, each operating on the already-redacted serialized payload. -/
def redact (payload : String) (patterns : List String) : String :=
  String.mk (patterns.foldl (fun d pat => replaceAll pat.data maskToken d) payload.data)

/-! ## Host-result events and the header line -/

/-- The five runner notifications the plugin handles; the failed notification
carries its `ignore_errors` flag. -/
inductive RunnerEvent where
  | ok
  | failed (ignoreErrors : Bool)
  | skipped
  | unreachable
  | asyncFailed
deriving DecidableEq

/-- The category string each `v2_runner_on_*` handler passes to `_log`; the
failed handler builds `f'FAILED {ignore_text}'` with `ignore_text` equal to
`.....ignoring` when errors are ignored and empty otherwise. -/
def emittedCategory : RunnerEvent → String
  | .ok => "OK"
  | .failed ignoreErrors => "FAILED " ++ (if ignoreErrors then ".....ignoring" else "")
  | .skipped => "SKIPPED"
  | .unreachable => "UNREACHABLE"
  | .asyncFailed => "ASYNC_FAILED"

/-- The header line `_log` writes for a host result: the host name padded to
width 18, then ` => `, then the category. -/
def logHostHeader (host : String) (category : String) : String :=
  writeTextWithTab (.str host) 18 ' ' ++ " => " ++ category

/-! ## Recap summary (`_write_summary`) -/

/-- A per-host summary as returned by the stats collaborator. -/
structure HostSummary where
  ok : Nat
  changed : Nat
  unreachable : Nat
  failures : Nat
  skipped : Nat
  rescued : Nat
  ignored : Nat
deriving DecidableEq

/-- One recap line: `RECAP_FORMAT` with the host padded to width 20 and each
counter padded to width 4. -/
def recapMsg (host : String) (s : HostSummary) : String :=
  writeTextWithTab (.str host) 20 ' ' ++ " : ok=" ++
  writeTextWithTab (.int s.ok) 4 ' ' ++ "  changed=" ++
  writeTextWithTab (.int s.changed) 4 ' ' ++ "  unreachable=" ++
  writeTextWithTab (.int s.unreachable) 4 ' ' ++ "  failed=" ++
  writeTextWithTab (.int s.failures) 4 ' ' ++ "  skipped=" ++
  writeTextWithTab (.int s.skipped) 4 ' ' ++ "  rescued=" ++
  writeTextWithTab (.int s.rescued) 4 ' ' ++ "  ignored=" ++
  writeTextWithTab (.int s.ignored) 4 ' '

/-- Ordinal (code-point-wise) lexicographic `≤` on character lists, as Python
string comparison performs it. -/
def charListLeb : List Char → List Char → Bool
  | [], _ => true
  | _ :: _, [] => false
  | a :: as, b :: bs =>
    if a.toNat = b.toNat then charListLeb as bs
    else decide (a.toNat < b.toNat)

/-- Python string `≤`: ordinal lexicographic comparison of the code points. -/
def strLeb (a b : String) : Bool :=
  charListLeb a.data b.data

/-- Insertion of a host name into an already-sorted list. -/
def orderedInsertHost (h : String) : List String → List String
  | [] => [h]
  | x :: xs => if strLeb h x then h :: x :: xs else x :: orderedInsertHost h xs

/-- Python `sorted()` over host names — extensionally, the unique
`strLeb`-sorted permutation — realised as insertion sort. -/
def sortHosts : List String → List String
  | [] => []
  | h :: hs => orderedInsertHost h (sortHosts hs)

/-- `_write_summary`: sorts the processed host names, then emits one recap
line per host in that order. -/
def writeSummary (hosts : List String) (summarize : String → HostSummary) : List String :=
  (sortHosts hosts).map (fun h => recapMsg h (summarize h))

/-! ## Elapsed time (`_write_time_calculation`) -/

/-- Python `timedelta.seconds` for a non-negative delta of `total` whole
seconds: the seconds-of-day remainder after whole days are split off. -/
def timedeltaSeconds (total : Nat) : Nat :=
  total % 86400

/-- The `(hours, minutes, seconds)` triple `_write_time_calculation` reports
for a run whose wall-clock delta is `total` whole seconds. -/
def writeTimeCalculation (total : Nat) : Nat × Nat × Nat :=
  (timedeltaSeconds total / 3600, (timedeltaSeconds total / 60) % 60,
   timedeltaSeconds total % 60)

/-! ## Helper lemmas: the string order used by `sortHosts` -/

lemma charListLeb_total (x y : List Char) :
    charListLeb x y = true ∨ charListLeb y x = true := by
  induction x generalizing y with
  | nil => left; rfl
  | cons a as ih =>
    cases y with
    | nil => right; rfl
    | cons b bs =>
      by_cases hab : a.toNat = b.toNat
      · rcases ih bs with h | h
        · left; simp [charListLeb, hab, h]
        · right; simp [charListLeb, hab.symm, h]
      · by_cases hlt : a.toNat < b.toNat
        · left; simp [charListLeb, hab, hlt]
        · right
          have hba : ¬ b.toNat = a.toNat := fun h => hab h.symm
          have hblt : b.toNat < a.toNat := by omega
          simp [charListLeb, hba, hblt]

lemma charListLeb_trans (x y z : List Char) (hxy : charListLeb x y = true)
    (hyz : charListLeb y z = true) : charListLeb x z = true := by
  induction x generalizing y z with
  | nil => rfl
  | cons a as ih =>
    cases y with
    | nil => simp [charListLeb] at hxy
    | cons b bs =>
      cases z with
      | nil => simp [charListLeb] at hyz
      | cons c cs =>
        simp only [charListLeb] at hxy hyz ⊢
        by_cases hab : a.toNat = b.toNat
        · by_cases hbc : b.toNat = c.toNat
          · have hac : a.toNat = c.toNat := hab.trans hbc
            rw [if_pos hab] at hxy
            rw [if_pos hbc] at hyz
            rw [if_pos hac]
            exact ih bs cs hxy hyz
          · have hac : ¬ a.toNat = c.toNat := by rw [hab]; exact hbc
            rw [if_neg hbc] at hyz
            rw [if_neg hac]
            have h2 : b.toNat < c.toNat := of_decide_eq_true hyz
            exact decide_eq_true (by omega)
        · rw [if_neg hab] at hxy
          have h1 : a.toNat < b.toNat := of_decide_eq_true hxy
          by_cases hbc : b.toNat = c.toNat
          · have hac : ¬ a.toNat = c.toNat := by omega
            rw [if_neg hac]
            exact decide_eq_true (by omega)
          · rw [if_neg hbc] at hyz
            have h2 : b.toNat < c.toNat := of_decide_eq_true hyz
            have hac : ¬ a.toNat = c.toNat := by omega
            rw [if_neg hac]
            exact decide_eq_true (by omega)

lemma strLeb_total (a b : String) : strLeb a b = true ∨ strLeb b a = true :=
  charListLeb_total a.data b.data

lemma strLeb_trans (a b c : String) (hab : strLeb a b = true)
    (hbc : strLeb b c = true) : strLeb a c = true :=
  charListLeb_trans a.data b.data c.data hab hbc

lemma orderedInsertHost_perm (h : String) (l : List String) :
    (orderedInsertHost h l).Perm (h :: l) := by
  induction l with
  | nil => exact List.Perm.refl _
  | cons x xs ih =>
    by_cases hc : strLeb h x = true
    · simp [orderedInsertHost, hc]
    · simp only [orderedInsertHost, if_neg hc]
      exact (ih.cons x).trans (List.Perm.swap h x xs)

lemma sortHosts_perm (l : List String) : (sortHosts l).Perm l := by
  induction l with
  | nil => exact List.Perm.refl _
  | cons h hs ih =>
    exact (orderedInsertHost_perm h (sortHosts hs)).trans (ih.cons h)

lemma pairwise_orderedInsertHost (h : String) (l : List String)
    (hl : l.Pairwise (fun a b => strLeb a b = true)) :
    (orderedInsertHost h l).Pairwise (fun a b => strLeb a b = true) := by
  induction l with
  | nil => simp [orderedInsertHost]
  | cons x xs ih =>
    rcases List.pairwise_cons.mp hl with ⟨hx, hxs⟩
    by_cases hc : strLeb h x = true
    · simp only [orderedInsertHost, if_pos hc]
      refine List.pairwise_cons.mpr ⟨?_, hl⟩
      intro y hy
      rcases List.mem_cons.mp hy with rfl | hy2
      · exact hc
      · exact strLeb_trans h x y hc (hx y hy2)
    · simp only [orderedInsertHost, if_neg hc]
      refine List.pairwise_cons.mpr ⟨?_, ih hxs⟩
      intro y hy
      rcases List.mem_cons.mp ((orderedInsertHost_perm h xs).mem_iff.mp hy) with hz | hy2
      · subst hz
        rcases strLeb_total y x with ht | ht
        · exact absurd ht hc
        · exact ht
      · exact hx y hy2

lemma sortHosts_pairwise (l : List String) :
    (sortHosts l).Pairwise (fun a b => strLeb a b = true) := by
  induction l with
  | nil => simp [sortHosts]
  | cons h hs ih => exact pairwise_orderedInsertHost h (sortHosts hs) ih

/-! ## Claim theorems: elapsed time, categories, recap ordering -/

/-- C3: the reported elapsed time is decomposed from only the seconds-of-day
remainder of the wall-clock delta (`hours = r / 3600`,
`minutes = (r / 60) % 60`, `seconds = r % 60` for `r = delta % 86400`), the
reported hours are strictly below 24, and adding a whole elapsed day to the
delta leaves the report unchanged (whole days are dropped). -/
theorem elapsed_time_uses_only_seconds_of_day (d : Nat) :
    writeTimeCalculation d =
      (d % 86400 / 3600, (d % 86400 / 60) % 60, d % 86400 % 60) ∧
    (writeTimeCalculation d).1 < 24 ∧
    writeTimeCalculation (d + 86400) = writeTimeCalculation d := by
  refine ⟨rfl, ?_, ?_⟩
  · show d % 86400 / 3600 < 24
    omega
  · simp [writeTimeCalculation, timedeltaSeconds, Nat.add_mod_right]

/-- C4 counterexample: the category string written to the header line for a
failed host result is `"FAILED .....ignoring"` when errors are ignored and
`"FAILED "` (with a trailing space) otherwise — neither is a member of the
claimed enumeration `{OK, FAILED, SKIPPED, UNREACHABLE, ASYNC_FAILED}`. -/
theorem failed_category_outside_enumeration :
    emittedCategory (.failed true) ∉
      ["OK", "FAILED", "SKIPPED", "UNREACHABLE", "ASYNC_FAILED"] ∧
    emittedCategory (.failed false) ∉
      ["OK", "FAILED", "SKIPPED", "UNREACHABLE", "ASYNC_FAILED"] := by
  decide

/-- C4 (amended): every category string emitted in a host-result header line
is one of the six strings `OK`, `FAILED ` (trailing space), \
`FAILED .....ignoring`, `SKIPPED`, `UNREACHABLE`, `ASYNC_FAILED`, and no
other category string is ever emitted. -/
theorem emitted_category_enumeration (e : RunnerEvent) :
    emittedCategory e ∈
      ["OK", "FAILED ", "FAILED .....ignoring", "SKIPPED", "UNREACHABLE",
       "ASYNC_FAILED"] := by
  cases e with
  | ok => decide
  | failed b => cases b <;> decide
  | skipped => decide
  | unreachable => decide
  | asyncFailed => decide

/-- C5: recap lines are emitted in lexicographically ascending
(ordinal, code-point-wise) host-name order regardless of input order — the
emitted sequence maps the sorted permutation of the input hosts — and on the
input `["web2", "web1"]` the `web1` recap line precedes the `web2` line. -/
theorem recap_lines_sorted (hosts : List String)
    (summarize : String → HostSummary) :
    writeSummary hosts summarize =
      (sortHosts hosts).map (fun h => recapMsg h (summarize h)) ∧
    (sortHosts hosts).Pairwise (fun a b => strLeb a b = true) ∧
    (sortHosts hosts).Perm hosts ∧
    writeSummary ["web2", "web1"] summarize =
      [recapMsg "web1" (summarize "web1"), recapMsg "web2" (summarize "web2")] := by
  refine ⟨rfl, sortHosts_pairwise hosts, sortHosts_perm hosts, ?_⟩
  have hs : sortHosts ["web2", "web1"] = ["web1", "web2"] := by decide
  simp [writeSummary, hs]

/-! ## Helper lemmas: display width and padding -/

lemma getTextWidth_append (a b : List Char) :
    getTextWidth (a ++ b) = getTextWidth a + getTextWidth b := by
  simp [getTextWidth]

lemma getTextWidth_replicate_space (n : Nat) :
    getTextWidth (List.replicate n ' ') = n := by
  have hw : charWidth ' ' = 1 := by decide
  simp [getTextWidth, List.map_replicate, hw, List.sum_replicate, smul_eq_mul]

lemma writeTextWithTab_str_eq (s : String) (width : Nat)
    (h : getTextWidth s.data ≤ width) :
    writeTextWithTab (.str s) width ' ' =
      s ++ String.mk (List.replicate (width - getTextWidth s.data) ' ') := by
  have hn : ((width : Int) - (getTextWidth s.data : Int)).toNat
      = width - getTextWidth s.data := by omega
  simp only [writeTextWithTab, pyStr, strRepeat, hn]

lemma getTextWidth_writeTextWithTab_str (s : String) (width : Nat)
    (h : getTextWidth s.data ≤ width) :
    getTextWidth (writeTextWithTab (.str s) width ' ').data = width := by
  have hd : (writeTextWithTab (.str s) width ' ').data
      = s.data ++ List.replicate (width - getTextWidth s.data) ' ' := by
    rw [writeTextWithTab_str_eq s width h]
    rfl
  rw [hd, getTextWidth_append, getTextWidth_replicate_space]
  omega

lemma strAppend_assoc (a b c : String) : a ++ b ++ c = a ++ (b ++ c) := by
  apply String.ext
  simp [String.data_append, List.append_assoc]

/-! ## Claim theorems: padding -/

/-- C6: for every string `s` of display width `w ≤ width`,
`_write_text_with_tab(s, width)` equals `s` with the fill character appended
exactly `width - w` times, and the result has display width exactly
`width`. -/
theorem pad_appends_fill_to_width (s : String) (width : Nat)
    (h : getTextWidth s.data ≤ width) :
    writeTextWithTab (.str s) width ' ' =
      s ++ String.mk (List.replicate (width - getTextWidth s.data) ' ') ∧
    getTextWidth (writeTextWithTab (.str s) width ' ').data = width :=
  ⟨writeTextWithTab_str_eq s width h, getTextWidth_writeTextWithTab_str s width h⟩

/-- Witness for C6 at `s = "ok"`, `width = 4`. -/
theorem pad_appends_fill_to_width_witness :
    getTextWidth "ok".data ≤ 4 ∧
    (writeTextWithTab (.str "ok") 4 ' ' =
      "ok" ++ String.mk (List.replicate (4 - getTextWidth "ok".data) ' ') ∧
    getTextWidth (writeTextWithTab (.str "ok") 4 ' ').data = 4) :=
  ⟨by decide, pad_appends_fill_to_width "ok" 4 (by decide)⟩

/-- C7: `_write_text_with_tab` returns a too-wide string unchanged (no
truncation, no padding), is total, and coerces its argument to string form
before measuring width (its result depends only on `str(text)`). -/
theorem pad_overflow_and_coercion :
    (∀ (s : String) (width : Nat) (c : Char), width < getTextWidth s.data →
      writeTextWithTab (.str s) width c = s) ∧
    (∀ (v : PyVal) (width : Nat) (c : Char),
      writeTextWithTab v width c = writeTextWithTab (.str (pyStr v)) width c) := by
  constructor
  · intro s width c hw
    have hn : ((width : Int) - (getTextWidth s.data : Int)).toNat = 0 := by omega
    simp only [writeTextWithTab, pyStr, strRepeat, hn, List.replicate]
    calc s ++ String.mk [] = String.mk (s.data ++ []) := rfl
    _ = String.mk s.data := by rw [List.append_nil]
    _ = s := rfl
  · intro v width c
    rfl

/-- Witness for C7 at `s = "long!"`, `width = 4`. -/
theorem pad_overflow_and_coercion_witness :
    4 < getTextWidth "long!".data ∧ writeTextWithTab (.str "long!") 4 '-' = "long!" :=
  ⟨by decide, pad_overflow_and_coercion.1 "long!" 4 '-' (by decide)⟩

/-! ## Helper lemmas: redaction -/

lemma replaceAllGo_no_occurrence (pat repl : List Char) :
    ∀ (fuel : Nat) (s : List Char), occursIn pat s = false →
      replaceAllGo pat repl fuel s = s := by
  intro fuel
  induction fuel with
  | zero => intro s _; rfl
  | succ n ih =>
    intro s hs
    by_cases hp : pat = []
    · simp [replaceAllGo, hp]
    · cases s with
      | nil => simp [replaceAllGo, hp]
      | cons c rest =>
        have h2 : pat.isPrefixOf (c :: rest) = false ∧ occursIn pat rest = false := by
          simpa [occursIn, Bool.or_eq_false_iff] using hs
        simp [replaceAllGo, hp, h2.1, ih rest h2.2]

lemma replaceAll_no_occurrence (pat repl s : List Char)
    (h : occursIn pat s = false) : replaceAll pat repl s = s :=
  replaceAllGo_no_occurrence pat repl s.length s h

lemma foldl_replaceAll_fixed (d : List Char) (ps : List String)
    (h : ∀ pat ∈ ps, occursIn pat.data d = false) :
    ps.foldl (fun acc pat => replaceAll pat.data maskToken acc) d = d := by
  induction ps with
  | nil => rfl
  | cons q qs ih =>
    have h1 : replaceAll q.data maskToken d = d :=
      replaceAll_no_occurrence _ _ _ (h q (List.mem_cons_self q qs))
    simp only [List.foldl_cons, h1]
    exact ih (fun pat hm => h pat (List.mem_cons_of_mem q hm))

/-! ## Claim theorems: redaction -/

/-- C8: redaction with an empty pattern list is the identity, and a pattern
with no match in the payload leaves the payload unchanged (the substitution
is total — it cannot fail). -/
theorem redact_identity_laws :
    (∀ payload : String, redact payload [] = payload) ∧
    (∀ (payload pat : String), occursIn pat.data payload.data = false →
      redact payload [pat] = payload) := by
  constructor
  · intro p
    rfl
  · intro p pat h
    show String.mk (replaceAll pat.data maskToken p.data) = p
    rw [replaceAll_no_occurrence _ _ _ h]

/-- Witness for C8: the pattern `pw` has no match in `payload`. -/
theorem redact_identity_laws_witness :
    occursIn "pw".data "payload".data = false ∧ redact "payload" ["pw"] = "payload" :=
  ⟨by decide, redact_identity_laws.2 "payload" "pw" (by decide)⟩

/-- C9 counterexample: with the single pattern `*a` (which has no match in
the 33-asterisk mask token, so the claim's proviso holds), redacting the
payload `*aa` once yields the mask followed by `a`, in which `*a` matches
again across the mask boundary — so a second application changes the
string and idempotence fails. -/
theorem redact_idempotence_counterexample :
    occursIn "*a".data maskToken = false ∧
    redact (redact "*aa" ["*a"]) ["*a"] ≠ redact "*aa" ["*a"] := by
  decide

/-- C9 (amended): patterns are applied sequentially in the order given, each
operating on the already-redacted string (splitting the pattern list splits
the fold), and a second application of `redact` with the same patterns is the
identity provided no pattern has any remaining match in the once-redacted
payload. -/
theorem redact_sequential_and_conditional_idempotence :
    (∀ (p : String) (ps₁ ps₂ : List String),
      redact p (ps₁ ++ ps₂) = redact (redact p ps₁) ps₂) ∧
    (∀ (p : String) (ps : List String),
      (∀ pat ∈ ps, occursIn pat.data (redact p ps).data = false) →
      redact (redact p ps) ps = redact p ps) := by
  constructor
  · intro p ps₁ ps₂
    show String.mk _ = String.mk _
    rw [List.foldl_append]
    rfl
  · intro p ps h
    show String.mk (ps.foldl _ (redact p ps).data) = redact p ps
    rw [foldl_replaceAll_fixed _ _ h]

/-- Witness for the amended C9: after redacting `secret1` with pattern
`secret`, the pattern no longer matches, and the second application is the
identity. -/
theorem redact_conditional_idempotence_witness :
    occursIn "secret".data (redact "secret1" ["secret"]).data = false ∧
    redact (redact "secret1" ["secret"]) ["secret"] = redact "secret1" ["secret"] :=
  ⟨by decide,
   redact_sequential_and_conditional_idempotence.2 "secret1" ["secret"]
     (by
       intro pat hm
       rw [List.mem_singleton] at hm
       subst hm
       decide)⟩

/-- C10: in the host-result header line the host name is padded to display
width 18, in the end-of-run recap line the same host name is padded to
display width 20, and the two padded host fields are never equal — the two
host-name column widths differ. -/
theorem host_column_widths_differ (host category : String) (s : HostSummary)
    (h : getTextWidth host.data ≤ 18) :
    logHostHeader host category =
      writeTextWithTab (.str host) 18 ' ' ++ " => " ++ category ∧
    (∃ rest : String,
      recapMsg host s = writeTextWithTab (.str host) 20 ' ' ++ rest) ∧
    getTextWidth (writeTextWithTab (.str host) 18 ' ').data = 18 ∧
    getTextWidth (writeTextWithTab (.str host) 20 ' ').data = 20 ∧
    writeTextWithTab (.str host) 18 ' ' ≠ writeTextWithTab (.str host) 20 ' ' := by
  have h20 : getTextWidth host.data ≤ 20 := by omega
  refine ⟨rfl, ?_, getTextWidth_writeTextWithTab_str host 18 h,
    getTextWidth_writeTextWithTab_str host 20 h20, ?_⟩
  · refine ⟨" : ok=" ++ writeTextWithTab (.int s.ok) 4 ' ' ++ "  changed=" ++
      writeTextWithTab (.int s.changed) 4 ' ' ++ "  unreachable=" ++
      writeTextWithTab (.int s.unreachable) 4 ' ' ++ "  failed=" ++
      writeTextWithTab (.int s.failures) 4 ' ' ++ "  skipped=" ++
      writeTextWithTab (.int s.skipped) 4 ' ' ++ "  rescued=" ++
      writeTextWithTab (.int s.rescued) 4 ' ' ++ "  ignored=" ++
      writeTextWithTab (.int s.ignored) 4 ' ', ?_⟩
    simp [recapMsg, strAppend_assoc]
  · intro heq
    have hw := congrArg (fun t : String => getTextWidth t.data) heq
    simp only [getTextWidth_writeTextWithTab_str host 18 h,
      getTextWidth_writeTextWithTab_str host 20 h20] at hw
    exact absurd hw (by decide)

/-- Witness for C10 at host `db1`. -/
theorem host_column_widths_differ_witness :
    getTextWidth "db1".data ≤ 18 ∧
    (logHostHeader "db1" "OK" =
      writeTextWithTab (.str "db1") 18 ' ' ++ " => " ++ "OK" ∧
    (∃ rest : String,
      recapMsg "db1" ⟨5, 1, 0, 0, 2, 0, 0⟩ =
        writeTextWithTab (.str "db1") 20 ' ' ++ rest) ∧
    getTextWidth (writeTextWithTab (.str "db1") 18 ' ').data = 18 ∧
    getTextWidth (writeTextWithTab (.str "db1") 20 ' ').data = 20 ∧
    writeTextWithTab (.str "db1") 18 ' ' ≠ writeTextWithTab (.str "db1") 20 ' ') :=
  ⟨by decide, host_column_widths_differ "db1" "OK" ⟨5, 1, 0, 0, 2, 0, 0⟩ (by decide)⟩

/-! ## Claim theorems: the log file path -/

/-- C1 counterexample: with run-script path `/plays/site.yml`, log directory
`./log` and start timestamp `2025-01-02 03:04:05.123456`, the computed log
path is NOT `./log/site-2025-01-02-03-04-05-123456.log` — neither as a
rendered string nor as a path value. -/
theorem log_path_scenario_counterexample :
    pathStr (makeLogFilePath "./log".data "/plays/site.yml".data
        ⟨2025, 1, 2, 3, 4, 5, 123456⟩) ≠
      "./log/site-2025-01-02-03-04-05-123456.log".data ∧
    makeLogFilePath "./log".data "/plays/site.yml".data
        ⟨2025, 1, 2, 3, 4, 5, 123456⟩ ≠
      parsePath "./log/site-2025-01-02-03-04-05-123456.log".data := by
  decide

/-- C1 (amended): with run-script path `/plays/site.yml`, log directory
`./log` and start timestamp `2025-01-02 03:04:05.123456`, the computed log
path is `/plays/site-2025-01-02-03-04-05-123456.log`: because the run
script's parent directory is absolute, `pathlib` joining discards the
configured log directory, and the log file lands next to the run script. -/
theorem log_path_scenario_actual :
    pathStr (makeLogFilePath "./log".data "/plays/site.yml".data
        ⟨2025, 1, 2, 3, 4, 5, 123456⟩) =
      "/plays/site-2025-01-02-03-04-05-123456.log".data := by
  decide

/-! ## Helper lemmas: decimal rendering is injective at fixed width -/

/-- Value of a little-endian digit list. -/
def parseLE : List Nat → Nat
  | [] => 0
  | d :: ds => d + 10 * parseLE ds

/-- Value of a big-endian digit-character list. -/
def parseBE (l : List Char) : Nat :=
  l.foldl (fun acc c => acc * 10 + (c.toNat - 48)) 0

lemma parseLE_digitsGo : ∀ (fuel n : Nat), n ≤ fuel → parseLE (digitsGo fuel n) = n := by
  intro fuel
  induction fuel with
  | zero =>
    intro n h
    have : n = 0 := by omega
    simp [this, digitsGo, parseLE]
  | succ m ih =>
    intro n h
    by_cases h0 : n = 0
    · simp [digitsGo, h0, parseLE]
    · have hd : n / 10 ≤ m := by omega
      simp only [digitsGo, h0, if_neg, ite_false, parseLE]
      rw [ih _ hd]
      omega

lemma digitsGo_length : ∀ (fuel n w : Nat), n ≤ fuel → n < 10 ^ w →
    (digitsGo fuel n).length ≤ w := by
  intro fuel
  induction fuel with
  | zero =>
    intro n w h _
    have : n = 0 := by omega
    simp [this, digitsGo]
  | succ m ih =>
    intro n w h hlt
    by_cases h0 : n = 0
    · simp [digitsGo, h0]
    · cases w with
      | zero => simp at hlt; omega
      | succ u =>
        have hd : n / 10 ≤ m := by omega
        have hdlt : n / 10 < 10 ^ u := by
          have hp : 10 ^ (u + 1) = 10 ^ u * 10 := pow_succ 10 u
          have h1 : n < 10 ^ u * 10 := by omega
          omega
        simp only [digitsGo, h0, ite_false, List.length_cons, if_neg]
        have := ih (n / 10) u hd hdlt
        omega

lemma digitsGo_lt : ∀ (fuel n : Nat), ∀ d ∈ digitsGo fuel n, d < 10 := by
  intro fuel
  induction fuel with
  | zero => intro n d hd; simp [digitsGo] at hd
  | succ m ih =>
    intro n d hd
    by_cases h0 : n = 0
    · simp [digitsGo, h0] at hd
    · simp only [digitsGo, h0, ite_false, List.mem_cons, if_neg] at hd
      rcases hd with rfl | hd
      · omega
      · exact ih _ d hd

lemma toNat_digitChar10 (d : Nat) (h : d < 10) : (digitChar10 d).toNat - 48 = d := by
  interval_cases d <;> decide

lemma parseBE_append_singleton (l : List Char) (c : Char) :
    parseBE (l ++ [c]) = parseBE l * 10 + (c.toNat - 48) := by
  simp [parseBE, List.foldl_append]

lemma parseBE_reverse_map (ds : List Nat) (h : ∀ d ∈ ds, d < 10) :
    parseBE (ds.reverse.map digitChar10) = parseLE ds := by
  induction ds with
  | nil => rfl
  | cons d ds ih =>
    have hd : d < 10 := h d (List.mem_cons_self d ds)
    have hds : ∀ x ∈ ds, x < 10 := fun x hx => h x (List.mem_cons_of_mem d hx)
    simp only [List.reverse_cons, List.map_append, List.map_cons, List.map_nil,
      parseBE_append_singleton, ih hds, toNat_digitChar10 d hd, parseLE]
    omega

lemma parseBE_replicate_zero (k : Nat) (l : List Char) :
    parseBE (List.replicate k '0' ++ l) = parseBE l := by
  induction k with
  | zero => simp
  | succ n ih =>
    have hz : ('0'.toNat - 48) = 0 := by decide
    simpa [List.replicate_succ, parseBE, hz] using ih

lemma parseBE_fmtNat (w n : Nat) : parseBE (fmtNat w n) = n := by
  unfold fmtNat
  rw [parseBE_replicate_zero, parseBE_reverse_map _ (digitsGo_lt n n),
    parseLE_digitsGo n n le_rfl]

lemma fmtNat_length (w n : Nat) (h : n < 10 ^ w) : (fmtNat w n).length = w := by
  have hlen := digitsGo_length n n w le_rfl h
  simp only [fmtNat, List.length_append, List.length_replicate, List.length_map,
    List.length_reverse]
  omega

lemma fmtNat_append_inj {w a b : Nat} {l₁ l₂ : List Char}
    (ha : a < 10 ^ w) (hb : b < 10 ^ w)
    (h : fmtNat w a ++ l₁ = fmtNat w b ++ l₂) : a = b ∧ l₁ = l₂ := by
  have hlen : (fmtNat w a).length = (fmtNat w b).length := by
    rw [fmtNat_length w a ha, fmtNat_length w b hb]
  obtain ⟨h1, h2⟩ := List.append_inj h hlen
  refine ⟨?_, h2⟩
  have := congrArg parseBE h1
  rwa [parseBE_fmtNat, parseBE_fmtNat] at this

lemma fmtNat_inj {w a b : Nat} (h : fmtNat w a = fmtNat w b) : a = b := by
  have := congrArg parseBE h
  rwa [parseBE_fmtNat, parseBE_fmtNat] at this

lemma strftimeSuffix_inj {t₁ t₂ : Timestamp} (h₁ : t₁.Valid) (h₂ : t₂.Valid)
    (h : strftimeSuffix t₁ = strftimeSuffix t₂) : t₁ = t₂ := by
  obtain ⟨hy1, hy2, hmo1, hmo2, hd1, hd2, hh1, hmi1, hs1, hus1⟩ := h₁
  obtain ⟨gy1, gy2, gmo1, gmo2, gd1, gd2, gh1, gmi1, gs1, gus1⟩ := h₂
  unfold strftimeSuffix at h
  obtain ⟨ey, h⟩ := fmtNat_append_inj (by norm_num; omega) (by norm_num; omega) h
  have h := (List.cons.injEq _ _ _ _).mp h |>.2
  obtain ⟨emo, h⟩ := fmtNat_append_inj (by norm_num; omega) (by norm_num; omega) h
  have h := (List.cons.injEq _ _ _ _).mp h |>.2
  obtain ⟨ed, h⟩ := fmtNat_append_inj (by norm_num; omega) (by norm_num; omega) h
  have h := (List.cons.injEq _ _ _ _).mp h |>.2
  obtain ⟨eh, h⟩ := fmtNat_append_inj (by norm_num; omega) (by norm_num; omega) h
  have h := (List.cons.injEq _ _ _ _).mp h |>.2
  obtain ⟨emi, h⟩ := fmtNat_append_inj (by norm_num; omega) (by norm_num; omega) h
  have h := (List.cons.injEq _ _ _ _).mp h |>.2
  obtain ⟨es, h⟩ := fmtNat_append_inj (by norm_num; omega) (by norm_num; omega) h
  have h := (List.cons.injEq _ _ _ _).mp h |>.2
  have eus := fmtNat_inj h
  cases t₁
  cases t₂
  simp_all

/-! ## Helper lemmas: path decomposition -/

lemma splitSlash_no_slash {l : List Char} (h : '/' ∉ l) : splitSlash l = [l] := by
  induction l with
  | nil => rfl
  | cons c rest ih =>
    have hc : c ≠ '/' := fun e => h (e ▸ List.mem_cons_self c rest)
    have hr : '/' ∉ rest := fun m => h (List.mem_cons_of_mem _ m)
    simp [splitSlash, hc, ih hr]

lemma splitSlash_mem_no_slash : ∀ (l seg : List Char), seg ∈ splitSlash l → '/' ∉ seg := by
  intro l
  induction l with
  | nil =>
    intro seg hseg
    simp only [splitSlash, List.mem_singleton] at hseg
    subst hseg
    simp
  | cons c rest ih =>
    intro seg hseg
    by_cases hc : c = '/'
    · simp only [splitSlash, if_pos hc, List.mem_cons] at hseg
      rcases hseg with rfl | hseg
      · simp
      · exact ih _ hseg
    · rcases hr : splitSlash rest with _ | ⟨s, ss⟩
      · simp only [splitSlash, if_neg hc, hr, List.mem_singleton] at hseg
        subst hseg
        intro hm
        rcases List.mem_cons.mp hm with he | hm2
        · exact hc he.symm
        · simp at hm2
      · simp only [splitSlash, if_neg hc, hr, List.mem_cons] at hseg
        rcases hseg with rfl | hseg
        · intro hm
          rcases List.mem_cons.mp hm with he | hm2
          · exact hc he.symm
          · exact ih s (hr ▸ List.mem_cons_self s ss) hm2
        · exact ih seg (hr ▸ List.mem_cons_of_mem s hseg)

lemma parsePath_absolute_eq_false {l : List Char} (h : '/' ∉ l) :
    (parsePath l).absolute = false := by
  cases l with
  | nil => rfl
  | cons c rest =>
    have hc : c ≠ '/' := fun e => h (e ▸ List.mem_cons_self c rest)
    simp only [parsePath]
    split
    · rename_i heq2
      injection heq2 with h1 _
      exact absurd h1 hc
    · rfl

lemma parsePath_single {l : List Char} (hs : '/' ∉ l) (hne : l ≠ [])
    (hdot : l ≠ ['.']) : parsePath l = ⟨false, [l]⟩ := by
  have habs := parsePath_absolute_eq_false hs
  have hparts : (parsePath l).parts = [l] := by
    have hcond : (l != [] && l != ['.']) = true := by
      simp [bne_iff_ne, hne, hdot]
    simp only [parsePath, splitSlash_no_slash hs, List.filter, hcond]
  calc parsePath l = ⟨(parsePath l).absolute, (parsePath l).parts⟩ := rfl
  _ = ⟨false, [l]⟩ := by rw [habs, hparts]

lemma parsePath_parts_no_slash {l seg : List Char}
    (h : seg ∈ (parsePath l).parts) : '/' ∉ seg := by
  simp only [parsePath, List.mem_filter] at h
  exact splitSlash_mem_no_slash l seg h.1

lemma lastName_no_slash (l : List Char) : '/' ∉ (parsePath l).lastName := by
  unfold PyPath.lastName
  cases hg : (parsePath l).parts.getLast? with
  | none => simp
  | some a =>
    simp only [Option.getD_some]
    exact parsePath_parts_no_slash (List.mem_of_getLast?_eq_some hg)

lemma stemOf_no_slash {nm : List Char} (h : '/' ∉ nm) : '/' ∉ stemOf nm := by
  unfold stemOf
  cases rfindDot nm with
  | none => exact h
  | some i =>
    simp only
    split
    · exact fun hm => h (List.take_subset i nm hm)
    · exact h

lemma digitChar10_ne_slash (d : Nat) : digitChar10 d ≠ '/' := by
  unfold digitChar10
  split <;> decide

lemma slash_not_mem_fmtNat (w n : Nat) : '/' ∉ fmtNat w n := by
  intro hm
  simp only [fmtNat, List.mem_append, List.mem_replicate, List.mem_map] at hm
  rcases hm with ⟨_, he⟩ | ⟨d, _, he⟩
  · exact absurd he (by decide)
  · exact digitChar10_ne_slash d he

lemma slash_not_mem_strftimeSuffix (t : Timestamp) : '/' ∉ strftimeSuffix t := by
  intro hm
  simp only [strftimeSuffix, List.mem_append, List.mem_cons] at hm
  rcases hm with h | h | h | h | h | h | h | h | h | h | h | h | h <;>
    first
      | exact slash_not_mem_fmtNat _ _ h
      | exact absurd h (by decide)

lemma makeLogFilePath_decomp (dir pb : List Char) (t : Timestamp) :
    makeLogFilePath dir pb t =
      ⟨((parsePath dir).joinpath (parsePath pb).parent).absolute,
       ((parsePath dir).joinpath (parsePath pb).parent).parts ++
         [stemOf (parsePath pb).lastName ++
           '-' :: (strftimeSuffix t ++ ['.', 'l', 'o', 'g'])]⟩ := by
  set fname := stemOf (parsePath pb).lastName ++
    '-' :: (strftimeSuffix t ++ ['.', 'l', 'o', 'g']) with hf
  have hs : '/' ∉ fname := by
    intro hm
    rcases List.mem_append.mp hm with h | h
    · exact stemOf_no_slash (lastName_no_slash pb) h
    · rcases List.mem_cons.mp h with he | h2
      · exact absurd he (by decide)
      · rcases List.mem_append.mp h2 with h3 | h3
        · exact slash_not_mem_strftimeSuffix t h3
        · exact absurd h3 (by decide)
  have hne : fname ≠ [] := by
    intro he
    have hlen := congrArg List.length he
    simp only [hf, List.length_append, List.length_cons, List.length_nil] at hlen
    omega
  have hdot : fname ≠ ['.'] := by
    intro he
    have hlen := congrArg List.length he
    simp only [hf, List.length_append, List.length_cons, List.length_nil] at hlen
    omega
  show PyPath.joinpath _ (parsePath fname) = _
  rw [parsePath_single hs hne hdot]
  rfl

lemma intercalateSlash_append_last (ps : List (List Char)) :
    ∃ B, ∀ f, intercalateSlash (ps ++ [f]) = B ++ f := by
  induction ps with
  | nil => exact ⟨[], fun f => rfl⟩
  | cons p ps ih =>
    obtain ⟨B, hB⟩ := ih
    cases ps with
    | nil => exact ⟨p ++ ['/'], fun f => by simp [intercalateSlash]⟩
    | cons q qs =>
      refine ⟨p ++ '/' :: B, fun f => ?_⟩
      show p ++ '/' :: intercalateSlash (q :: qs ++ [f]) = (p ++ '/' :: B) ++ f
      rw [hB f]
      simp

lemma pathStr_append_last (ab : Bool) (ps : List (List Char)) :
    ∃ A, ∀ f, pathStr ⟨ab, ps ++ [f]⟩ = A ++ f := by
  obtain ⟨B, hB⟩ := intercalateSlash_append_last ps
  refine ⟨(if ab then ['/'] else []) ++ B, fun f => ?_⟩
  have hps : pathStr ⟨ab, ps ++ [f]⟩ =
      (if ab then ['/'] else []) ++ intercalateSlash (ps ++ [f]) := by
    cases ps with
    | nil => rfl
    | cons p ps2 => rfl
  rw [hps, hB f, ← List.append_assoc]

/-- C2: the output log path is a deterministic function of
(log directory, run identifier, start timestamp), and — because the file
name embeds the start time rendered to microsecond precision — two runs of
the same script with the same log directory started at different
(valid) times always produce different output paths. -/
theorem log_path_deterministic_and_time_injective
    (logDirectory playbook : List Char) (t₁ t₂ : Timestamp)
    (h₁ : t₁.Valid) (h₂ : t₂.Valid) :
    (t₁ = t₂ →
      makeLogFilePath logDirectory playbook t₁ =
        makeLogFilePath logDirectory playbook t₂) ∧
    (t₁ ≠ t₂ →
      pathStr (makeLogFilePath logDirectory playbook t₁) ≠
        pathStr (makeLogFilePath logDirectory playbook t₂)) := by
  constructor
  · intro he
    rw [he]
  · intro hne heq
    apply hne
    rw [makeLogFilePath_decomp, makeLogFilePath_decomp] at heq
    obtain ⟨A, hA⟩ := pathStr_append_last
      ((parsePath logDirectory).joinpath (parsePath playbook).parent).absolute
      ((parsePath logDirectory).joinpath (parsePath playbook).parent).parts
    rw [hA, hA] at heq
    have hfname := List.append_cancel_left heq
    have hrest := List.append_cancel_left hfname
    have hrest2 := ((List.cons.injEq _ _ _ _).mp hrest).2
    have hsuffix := List.append_cancel_right hrest2
    exact strftimeSuffix_inj h₁ h₂ hsuffix

/-- Witness for C2: two start timestamps one microsecond apart yield
different log paths for the same script and log directory. -/
theorem log_path_time_injective_witness :
    Timestamp.Valid ⟨2025, 1, 2, 3, 4, 5, 123456⟩ ∧
    Timestamp.Valid ⟨2025, 1, 2, 3, 4, 5, 123457⟩ ∧
    (((⟨2025, 1, 2, 3, 4, 5, 123456⟩ : Timestamp) = ⟨2025, 1, 2, 3, 4, 5, 123457⟩ →
      makeLogFilePath "./log".data "plays/site.yml".data ⟨2025, 1, 2, 3, 4, 5, 123456⟩ =
        makeLogFilePath "./log".data "plays/site.yml".data ⟨2025, 1, 2, 3, 4, 5, 123457⟩) ∧
    ((⟨2025, 1, 2, 3, 4, 5, 123456⟩ : Timestamp) ≠ ⟨2025, 1, 2, 3, 4, 5, 123457⟩ →
      pathStr (makeLogFilePath "./log".data "plays/site.yml".data
          ⟨2025, 1, 2, 3, 4, 5, 123456⟩) ≠
        pathStr (makeLogFilePath "./log".data "plays/site.yml".data
          ⟨2025, 1, 2, 3, 4, 5, 123457⟩))) :=
  ⟨by decide, by decide,
   log_path_deterministic_and_time_injective "./log".data "plays/site.yml".data
     ⟨2025, 1, 2, 3, 4, 5, 123456⟩ ⟨2025, 1, 2, 3, 4, 5, 123457⟩
     (by decide) (by decide)⟩

end CustomLogging
